import Mathlib

/-!
Verification of the rshmem intrusive shared-memory block allocator
(src/allocator.rs, src/mutex.rs, src/memory.rs).

The guarded region is modelled as a heap of block headers indexed by
absolute address (`Nat`, with `0` playing the role of the null pointer).
The Rust code reads and writes whole `BlockHeader` records at addresses
that are block starts; `write_bytes(0, ..)` on a freed block is modelled
as storing the all-zero header at the block's start address (its payload
bytes carry no header of any live block in the well-formed states
considered, and no code path reads them as a header afterwards other
than through the block-start addresses modelled here).

Machine integers (`usize`, pointers) are modelled as `Nat`; the
subtractions performed by the source (`buffer_len - block_size`,
`block.next - buffer - block_size`) never underflow on the well-formed
states considered, so truncated `Nat` subtraction agrees with them.

The source functions are recursive through raw `next` pointers, so the
embedding adds an explicit fuel argument; the public entry points pass
fuel `len + 1`, which is shown to be sufficient for every well-formed
list living in a region of `len` bytes.
-/

namespace Rshmem

/-- `BlockHeader` from src/allocator.rs: `size` is the payload length,
`next` the address of the next header (0 = null), `parent` the payload
address of the block this one is grouped under (0 = null). -/
structure BlockHeader where
  size : Nat
  next : Nat
  parent : Nat
deriving DecidableEq, Repr

/-- `BlockHeader::SIZE = size_of::<BlockHeader>()`: three 8-byte fields
(`usize` and two pointers) on the 64-bit target. -/
def BlockHeader.SIZE : Nat := 24

/-- The guarded region seen as a header at every address. -/
def Heap : Type := Nat → BlockHeader

/-- Store a header record at address `a`. -/
def Heap.write (H : Heap) (a : Nat) (b : BlockHeader) : Heap :=
  fun x => if x = a then b else H x

@[simp] theorem Heap.write_same (H : Heap) (a : Nat) (b : BlockHeader) :
    H.write a b a = b := by
  simp [Heap.write]

theorem Heap.write_other (H : Heap) (a x : Nat) (b : BlockHeader) (h : x ≠ a) :
    H.write a b x = H x := by
  simp [Heap.write, h]

/-- End address of the block whose header sits at `b`:
header plus payload. -/
def blockEnd (H : Heap) (b : Nat) : Nat :=
  b + BlockHeader.SIZE + (H b).size

/-- The free space immediately following the block at `buffer`, exactly as
computed by `allocate` in src/allocator.rs: up to the next block if there
is one, else up to the end of the remaining region. -/
def freeSpace (H : Heap) (buffer bufferLen : Nat) : Nat :=
  if (H buffer).next = 0 then
    bufferLen - (BlockHeader.SIZE + (H buffer).size)
  else
    (H buffer).next - buffer - (BlockHeader.SIZE + (H buffer).size)

/-- The free function `allocate` from src/allocator.rs (lines 43-74),
with an explicit fuel bound on the recursion depth.  Returns the heap
after the call together with the payload address of the new block, or
`none` when no gap fits.  On the `none` paths the heap is returned
unchanged, mirroring that those paths of the source perform no write. -/
def allocate : Nat → Heap → Nat → Nat → Nat → Nat → Heap × Option Nat
  | 0, H, _, _, _, _ => (H, none)
  | fuel + 1, H, buffer, bufferLen, size, parent =>
    if BlockHeader.SIZE + size ≤ freeSpace H buffer bufferLen then
      -- new_buffer = buffer.add(block_size); write the new header there,
      -- then rewrite the current block's next field.
      ((H.write (buffer + (BlockHeader.SIZE + (H buffer).size))
          ⟨size, (H buffer).next, parent⟩).write buffer
          ⟨(H buffer).size, buffer + (BlockHeader.SIZE + (H buffer).size),
            (H buffer).parent⟩,
        some (buffer + (BlockHeader.SIZE + (H buffer).size) + BlockHeader.SIZE))
    else if (H buffer).next = 0 then
      (H, none)
    else
      allocate fuel H (H buffer).next
        (bufferLen - ((H buffer).next - buffer)) size parent

/-- The free function `deallocate` from src/allocator.rs (lines 76-93),
with an explicit fuel bound.  A block matches when it is live
(`size > 0`) and its payload address or its parent field equals `data`;
it is then unlinked (`prev.next = current.next`) and its header zeroed
(`write_bytes(0, ..)`). -/
def deallocate : Nat → Heap → Nat → Nat → Nat → Nat → Heap × Nat
  | 0, H, _, _, _, count => (H, count)
  | fuel + 1, H, prev, current, data, count =>
    if current = 0 then (H, count)
    else if 0 < (H current).size ∧
        (current + BlockHeader.SIZE = data ∨ (H current).parent = data) then
      deallocate fuel
        ((H.write prev
            ⟨(H prev).size, (H current).next, (H prev).parent⟩).write current
            ⟨0, 0, 0⟩)
        prev (H current).next data (count + 1)
    else
      deallocate fuel H current (H current).next data count

/-- `Allocator::MIN_SIZE` from src/allocator.rs. -/
def Allocator.MIN_SIZE : Nat := BlockHeader.SIZE

/-- The guarded region handed to `Allocator` by the lock: base address of
the region (the head sentinel's header address), its length in bytes, and
the heap of headers. -/
structure Arena where
  base : Nat
  len : Nat
  heap : Heap

/-- A zero-filled guarded region: the backing mapping is zero-initialized
on creation, so every header reads as `⟨0, 0, 0⟩`; the head sentinel at
`base` is exactly that record. -/
def Arena.init (base len : Nat) : Arena :=
  ⟨base, len, fun _ => ⟨0, 0, 0⟩⟩

/-- `Allocator::allocate` (null parent). -/
def Arena.alloc (a : Arena) (size : Nat) : Arena × Option Nat :=
  let r := allocate (a.len + 1) a.heap a.base a.len size 0
  ({ a with heap := r.1 }, r.2)

/-- `Allocator::allocate_more` (explicit parent payload address). -/
def Arena.allocMore (a : Arena) (size parent : Nat) : Arena × Option Nat :=
  let r := allocate (a.len + 1) a.heap a.base a.len size parent
  ({ a with heap := r.1 }, r.2)

/-- `Allocator::deallocate`: the walk starts with `prev` at the region
base and `current` at the fixed address `base + BlockHeader::SIZE`
(`prev.add(BlockHeader::SIZE)` in the source), and the facade reports
whether the count of removed blocks is positive. -/
def Arena.dealloc (a : Arena) (data : Nat) : Arena × Bool :=
  let r := deallocate (a.len + 1) a.heap a.base (a.base + BlockHeader.SIZE)
    data 0
  ({ a with heap := r.1 }, decide (0 < r.2))

/-- The sequence of block headers reachable from address `a` by following
`next` fields: `bs` is the list of their addresses. -/
def listRep (H : Heap) : Nat → List Nat → Prop
  | a, [] => a = 0
  | a, b :: bs => a = b ∧ b ≠ 0 ∧ listRep H (H b).next bs

instance listRep.inst (H : Heap) :
    (bs : List Nat) → (a : Nat) → Decidable (listRep H a bs)
  | [], a => by unfold listRep; infer_instance
  | b :: bs, a => by
    unfold listRep
    haveI := listRep.inst H bs (H b).next
    infer_instance

/-- Geometry of a block list tail: the previous block ends at `e`, every
block starts at or after the end of its predecessor, and the last block
ends at or before the region end `R`. -/
def geomFrom (H : Heap) (R : Nat) : Nat → List Nat → Prop
  | e, [] => e ≤ R
  | e, b :: bs => e ≤ b ∧ geomFrom H R (blockEnd H b) bs

instance geomFrom.inst (H : Heap) (R : Nat) :
    (bs : List Nat) → (e : Nat) → Decidable (geomFrom H R e bs)
  | [], e => by unfold geomFrom; infer_instance
  | b :: bs, e => by
    unfold geomFrom
    haveI := geomFrom.inst H R bs (blockEnd H b)
    infer_instance

/-- Every listed block is live. -/
def allPos (H : Heap) (bs : List Nat) : Prop :=
  ∀ b ∈ bs, 0 < (H b).size

instance (H : Heap) (bs : List Nat) : Decidable (allPos H bs) :=
  List.decidableBAll _ bs

/-- Well-formedness of a guarded region whose block list is `bs`:
positive base (addresses are non-null), zero-size head sentinel at the
base, `bs` is the chain hanging off the sentinel, sorted and
non-overlapping inside the region, all its members live, and the address
`base + BlockHeader.SIZE` probed by `Allocator::deallocate` holds either
the first list member or a zeroed header.  Every state reachable from
the zero-filled region by operations with positive sizes satisfies
this. -/
def Arena.WF (a : Arena) (bs : List Nat) : Prop :=
  0 < a.base ∧
  (a.heap a.base).size = 0 ∧
  listRep a.heap (a.heap a.base).next bs ∧
  geomFrom a.heap (a.base + a.len) (a.base + BlockHeader.SIZE) bs ∧
  allPos a.heap bs ∧
  (bs.head? = some (a.base + BlockHeader.SIZE) ∨
    a.heap (a.base + BlockHeader.SIZE) = ⟨0, 0, 0⟩)

instance (a : Arena) (bs : List Nat) : Decidable (a.WF bs) := by
  unfold Arena.WF; infer_instance

/-- Modelled from the spec: the free gaps of the list, in address order.
Each entry is the gap's start address (the end of the preceding block)
and its length: up to the next block's start, and for the last entry up
to the end of the guarded region. -/
def specGaps (H : Heap) (R : Nat) : Nat → List Nat → List (Nat × Nat)
  | e, [] => [(e, R - e)]
  | e, b :: bs => (e, b - e) :: specGaps H R (blockEnd H b) bs

/-- The match test of `deallocate`: a live block whose payload address or
parent field equals `data`. -/
def blockMatches (H : Heap) (data b : Nat) : Bool :=
  decide (0 < (H b).size) &&
    (decide (b + BlockHeader.SIZE = data) || decide ((H b).parent = data))

/-- What a successful `allocate` call does to a well-formed list `bs`:
some block `cur` (the sentinel `buffer` itself or a list member) is
found whose following gap fits, the new header is placed at `cur`'s end
address `pos`, the returned payload address is `pos + BlockHeader.SIZE`,
the list gains exactly the node `pos` at the corresponding position, it
stays sorted and non-overlapping inside the region, and no header other
than `pos` (written fresh) and `cur` (its `next` field) changes. -/
def AllocSuccess (H H2 : Heap) (buffer R addr size parent : Nat)
    (bs : List Nat) : Prop :=
  ∃ bs1 cur pos bs2,
    bs = bs1 ++ bs2 ∧
    ((bs1 = [] ∧ cur = buffer) ∨ cur ∈ bs1) ∧
    pos = blockEnd H cur ∧
    addr = pos + BlockHeader.SIZE ∧
    (H2 pos).size = size ∧
    (H2 pos).parent = parent ∧
    (H2 buffer).size = (H buffer).size ∧
    (H2 buffer).parent = (H buffer).parent ∧
    (∀ b ∈ bs, (H2 b).size = (H b).size ∧ (H2 b).parent = (H b).parent) ∧
    (∀ x, x ≠ pos → x ≠ cur → H2 x = H x) ∧
    listRep H2 (H2 buffer).next (bs1 ++ pos :: bs2) ∧
    geomFrom H2 R (blockEnd H2 buffer) (bs1 ++ pos :: bs2)

/-- One facade operation on the guarded region. -/
inductive Op where
  | alloc (size : Nat)
  | allocMore (size parent : Nat)
  | dealloc (data : Nat)

/-- Apply one operation, keeping only the next state. -/
def Arena.step (a : Arena) : Op → Arena
  | .alloc size => (a.alloc size).1
  | .allocMore size parent => (a.allocMore size parent).1
  | .dealloc data => (a.dealloc data).1

/-- Run a sequence of operations. -/
def Arena.run (a : Arena) (ops : List Op) : Arena :=
  ops.foldl Arena.step a

/-- The size restriction under which the zero-size invariant holds:
allocation requests are positive (deallocation is unrestricted). -/
def Op.sizeOk : Op → Prop
  | .alloc size => 0 < size
  | .allocMore size _ => 0 < size
  | .dealloc _ => True

/-- `MemoryMutex::SIZE = size_of::<AtomicBool>()`: one byte. -/
def MemoryMutex.SIZE : Nat := 1

/-- The shared mapping owned by the facade in src/memory.rs: arena base
address, total capacity `N`, the lock word occupying the first
`MemoryMutex.SIZE` bytes, and the headers of the rest. -/
structure MemoryState where
  base : Nat
  size : Nat
  lockWord : Bool
  heap : Heap

/-- The scoped handle returned by `MemoryMutex::lock` in src/mutex.rs:
the guarded region's base address and length. -/
structure MemoryGuard where
  buffer : Nat
  size : Nat

/-- `MemoryMutex::lock`: the compare-and-swap loop acquires the word as
soon as it is `false`; with the word already held and no other holder to
release it, the loop spins forever, modelled as `none`.  On success the
guard excludes the lock word from the region. -/
def MemoryMutex.lock (m : MemoryState) : Option (MemoryGuard × MemoryState) :=
  if m.lockWord then none
  else some (⟨m.base + MemoryMutex.SIZE, m.size - MemoryMutex.SIZE⟩,
    { m with lockWord := true })

/-- `MemoryGuard::drop`: releasing the handle stores `false` into the
lock word. -/
def MemoryGuard.drop (m : MemoryState) : MemoryState :=
  { m with lockWord := false }

/-- `Memory::allocate` from src/memory.rs: lock, run the allocator over
the guard's region, and let the guard's drop release the lock on
return. -/
def Memory.allocate (m : MemoryState) (size : Nat) :
    Option (MemoryState × Option Nat) :=
  match MemoryMutex.lock m with
  | none => none
  | some (g, m1) =>
    let r := Rshmem.allocate (g.size + 1) m1.heap g.buffer g.size size 0
    some (MemoryGuard.drop { m1 with heap := r.1 }, r.2)

/-- `Memory::allocate_more` from src/memory.rs. -/
def Memory.allocateMore (m : MemoryState) (size parent : Nat) :
    Option (MemoryState × Option Nat) :=
  match MemoryMutex.lock m with
  | none => none
  | some (g, m1) =>
    let r := Rshmem.allocate (g.size + 1) m1.heap g.buffer g.size size parent
    some (MemoryGuard.drop { m1 with heap := r.1 }, r.2)

/-- `Memory::deallocate` from src/memory.rs. -/
def Memory.deallocate (m : MemoryState) (data : Nat) :
    Option (MemoryState × Bool) :=
  match MemoryMutex.lock m with
  | none => none
  | some (g, m1) =>
    let r := Rshmem.deallocate (g.size + 1) m1.heap g.buffer
      (g.buffer + BlockHeader.SIZE) data 0
    some (MemoryGuard.drop { m1 with heap := r.1 }, decide (0 < r.2))

/-! ### Basic properties of the list representation and geometry -/

theorem listRep_nil (H : Heap) (a : Nat) : listRep H a [] ↔ a = 0 := by
  simp [listRep]

theorem listRep_cons (H : Heap) (a b : Nat) (bs : List Nat) :
    listRep H a (b :: bs) ↔ a = b ∧ b ≠ 0 ∧ listRep H (H b).next bs := by
  simp [listRep]

/-- The chain determined by a heap and a start address is unique. -/
theorem listRep_unique (H : Heap) :
    ∀ (bs1 bs2 : List Nat) (a : Nat),
      listRep H a bs1 → listRep H a bs2 → bs1 = bs2 := by
  intro bs1
  induction bs1 with
  | nil =>
    intro bs2 a h1 h2
    cases bs2 with
    | nil => rfl
    | cons c cs =>
      rw [listRep_nil] at h1
      rw [listRep_cons] at h2
      exact absurd (h1 ▸ h2.1) (Ne.symm h2.2.1)
  | cons b bs ih =>
    intro bs2 a h1 h2
    cases bs2 with
    | nil =>
      rw [listRep_nil] at h2
      rw [listRep_cons] at h1
      exact absurd (h2 ▸ h1.1) (Ne.symm h1.2.1)
    | cons c cs =>
      rw [listRep_cons] at h1 h2
      obtain ⟨rfl, _, h1⟩ := h1
      obtain ⟨rfl, _, h2⟩ := h2
      rw [ih cs _ h1 h2]

/-- A chain only depends on the heap at its member addresses. -/
theorem listRep_congr (H H2 : Heap) :
    ∀ (bs : List Nat) (a : Nat), listRep H a bs →
      (∀ b ∈ bs, H2 b = H b) → listRep H2 a bs := by
  intro bs
  induction bs with
  | nil => intro a h _; exact h
  | cons b bs ih =>
    intro a h hsame
    rw [listRep_cons] at h ⊢
    refine ⟨h.1, h.2.1, ?_⟩
    rw [hsame b (List.mem_cons_self b bs)]
    exact ih _ h.2.2 fun c hc => hsame c (List.mem_cons_of_mem b hc)

/-- Geometry only depends on the heap at the member addresses. -/
theorem geomFrom_congr (H H2 : Heap) (R : Nat) :
    ∀ (bs : List Nat) (e : Nat), geomFrom H R e bs →
      (∀ b ∈ bs, H2 b = H b) → geomFrom H2 R e bs := by
  intro bs
  induction bs with
  | nil => intro e h _; exact h
  | cons b bs ih =>
    intro e h hsame
    obtain ⟨h1, h2⟩ := h
    refine ⟨h1, ?_⟩
    have hb : blockEnd H2 b = blockEnd H b := by
      unfold blockEnd; rw [hsame b (List.mem_cons_self b bs)]
    rw [hb]
    exact ih _ h2 fun c hc => hsame c (List.mem_cons_of_mem b hc)

theorem allPos_congr (H H2 : Heap) (bs : List Nat) (h : allPos H bs)
    (hsame : ∀ b ∈ bs, H2 b = H b) : allPos H2 bs := by
  intro b hb
  rw [hsame b hb]
  exact h b hb

/-- Every member of a well-formed tail starts at or after `e`. -/
theorem geomFrom_mem_le (H : Heap) (R : Nat) :
    ∀ (bs : List Nat) (e : Nat), geomFrom H R e bs → ∀ b ∈ bs, e ≤ b := by
  intro bs
  induction bs with
  | nil => intro e _ b hb; cases hb
  | cons c bs ih =>
    intro e h b hb
    obtain ⟨h1, h2⟩ := h
    rcases List.mem_cons.mp hb with rfl | hb
    · exact h1
    · have := ih _ h2 b hb
      unfold blockEnd at this
      omega

/-- The start point of a well-formed tail is inside the region. -/
theorem geomFrom_le_R (H : Heap) (R : Nat) :
    ∀ (bs : List Nat) (e : Nat), geomFrom H R e bs → e ≤ R := by
  intro bs
  induction bs with
  | nil => intro e h; exact h
  | cons b bs ih =>
    intro e h
    have h1 := h.1
    have := ih _ h.2
    unfold blockEnd at this
    omega

/-- Weakening: geometry from a later end point gives geometry from an
earlier one. -/
theorem geomFrom_mono (H : Heap) (R : Nat) (bs : List Nat) (e e2 : Nat)
    (h : geomFrom H R e2 bs) (hle : e ≤ e2) : geomFrom H R e bs := by
  cases bs with
  | nil => exact le_trans hle h
  | cons b bs => exact ⟨le_trans hle h.1, h.2⟩

/-- Each block consumes at least a header's worth of the region, which
bounds the length of any well-formed list. -/
theorem geomFrom_length (H : Heap) (R : Nat) :
    ∀ (bs : List Nat) (e : Nat), geomFrom H R e bs →
      e + BlockHeader.SIZE * bs.length ≤ R := by
  intro bs
  induction bs with
  | nil => intro e h; simpa using h
  | cons b bs ih =>
    intro e h
    obtain ⟨h1, h2⟩ := h
    have := ih _ h2
    unfold blockEnd at this
    simp only [List.length_cons]
    unfold BlockHeader.SIZE at this ⊢
    omega

/-- Members of a well-formed chain are nonzero and strictly above the
start point once the head is passed. -/
theorem geomFrom_tail_lt (H : Heap) (R : Nat) (bs : List Nat) (b e : Nat)
    (h : geomFrom H R e (b :: bs)) : ∀ c ∈ bs, b < c := by
  intro c hc
  have := geomFrom_mem_le H R bs (blockEnd H b) h.2 c hc
  unfold blockEnd at this
  unfold BlockHeader.SIZE at this
  omega

/-! ### `allocate`: failure leaves the heap untouched -/

theorem allocate_none (fuel : Nat) :
    ∀ (H : Heap) (buffer bufferLen size parent : Nat),
      (allocate fuel H buffer bufferLen size parent).2 = none →
      (allocate fuel H buffer bufferLen size parent).1 = H := by
  induction fuel with
  | zero => intro H buffer bufferLen size parent _; rfl
  | succ fuel ih =>
    intro H buffer bufferLen size parent h
    by_cases hc : BlockHeader.SIZE + size ≤ freeSpace H buffer bufferLen
    · rw [allocate, if_pos hc] at h
      simp at h
    · by_cases hn : (H buffer).next = 0
      · rw [allocate, if_neg hc, if_pos hn]
      · rw [allocate, if_neg hc, if_neg hn] at h ⊢
        exact ih _ _ _ _ _ h

/-! ### `allocate` computes first fit over the gap list -/

theorem allocate_find :
    ∀ (bs : List Nat) (fuel : Nat) (H : Heap) (buffer bufferLen size parent : Nat),
      listRep H (H buffer).next bs →
      geomFrom H (buffer + bufferLen) (blockEnd H buffer) bs →
      bs.length < fuel →
      (allocate fuel H buffer bufferLen size parent).2 =
        ((specGaps H (buffer + bufferLen) (blockEnd H buffer) bs).find?
            (fun g => decide (BlockHeader.SIZE + size ≤ g.2))).map
          (fun g => g.1 + BlockHeader.SIZE) := by
  intro bs
  induction bs with
  | nil =>
    intro fuel H buffer bufferLen size parent hrep hgeom hfuel
    obtain ⟨f, rfl⟩ : ∃ f, fuel = f + 1 := ⟨fuel - 1, by omega⟩
    rw [listRep_nil] at hrep
    have hle : blockEnd H buffer ≤ buffer + bufferLen := hgeom
    have hfs : freeSpace H buffer bufferLen =
        buffer + bufferLen - blockEnd H buffer := by
      unfold freeSpace blockEnd at *
      rw [if_pos hrep]
      omega
    by_cases hc : BlockHeader.SIZE + size ≤ freeSpace H buffer bufferLen
    · rw [allocate, if_pos hc]
      simp only [specGaps]
      rw [List.find?_cons_of_pos _ (by rw [hfs] at hc; simpa using hc)]
      simp only [Option.map_some', Option.some.injEq]
      unfold blockEnd
      omega
    · rw [allocate, if_neg hc, if_pos hrep]
      simp only [specGaps]
      rw [List.find?_cons_of_neg _ (by rw [hfs] at hc; simpa using hc),
        List.find?_nil]
      rfl
  | cons b rest ih =>
    intro fuel H buffer bufferLen size parent hrep hgeom hfuel
    obtain ⟨f, rfl⟩ : ∃ f, fuel = f + 1 := ⟨fuel - 1, by omega⟩
    rw [listRep_cons] at hrep
    obtain ⟨hnext, hb0, hrest⟩ := hrep
    obtain ⟨hge, hgtail⟩ := hgeom
    have hbR : blockEnd H b ≤ buffer + bufferLen := geomFrom_le_R _ _ _ _ hgtail
    have hfs : freeSpace H buffer bufferLen = b - blockEnd H buffer := by
      unfold freeSpace
      rw [hnext, if_neg hb0]
      unfold blockEnd
      omega
    by_cases hc : BlockHeader.SIZE + size ≤ freeSpace H buffer bufferLen
    · rw [allocate, if_pos hc]
      simp only [specGaps]
      rw [List.find?_cons_of_pos _ (by rw [hfs] at hc; simpa using hc)]
      simp only [Option.map_some', Option.some.injEq]
      unfold blockEnd
      omega
    · have hble : buffer ≤ b := by
        unfold blockEnd at hge
        unfold BlockHeader.SIZE at hge
        omega
      have hReq : b + (bufferLen - (b - buffer)) = buffer + bufferLen := by
        unfold blockEnd at hbR
        omega
      have hfuel2 : rest.length < f := by
        simp only [List.length_cons] at hfuel
        omega
      have hrec := ih f H b (bufferLen - (b - buffer)) size parent hrest
        (by rw [hReq]; exact hgtail) hfuel2
      rw [hReq] at hrec
      rw [allocate, if_neg hc, hnext, if_neg hb0, hrec]
      simp only [specGaps]
      rw [List.find?_cons_of_neg _ (by rw [hfs] at hc; simpa using hc)]
theorem geomFrom_nil (H : Heap) (R e : Nat) : geomFrom H R e [] ↔ e ≤ R :=
  Iff.rfl

theorem geomFrom_cons (H : Heap) (R e b : Nat) (bs : List Nat) :
    geomFrom H R e (b :: bs) ↔ e ≤ b ∧ geomFrom H R (blockEnd H b) bs :=
  Iff.rfl

/-! ### What a successful `allocate` does -/

theorem allocate_success :
    ∀ (bs : List Nat) (fuel : Nat) (H H2 : Heap)
      (buffer bufferLen size parent addr : Nat),
      listRep H (H buffer).next bs →
      geomFrom H (buffer + bufferLen) (blockEnd H buffer) bs →
      bs.length < fuel →
      allocate fuel H buffer bufferLen size parent = (H2, some addr) →
      AllocSuccess H H2 buffer (buffer + bufferLen) addr size parent bs := by
  intro bs
  induction bs with
  | nil =>
    intro fuel H H2 buffer bufferLen size parent addr hrep hgeom hfuel heq
    obtain ⟨f, rfl⟩ : ∃ f, fuel = f + 1 := ⟨fuel - 1, by omega⟩
    rw [listRep_nil] at hrep
    have hle : blockEnd H buffer ≤ buffer + bufferLen := hgeom
    have hfs : freeSpace H buffer bufferLen =
        buffer + bufferLen - blockEnd H buffer := by
      unfold freeSpace blockEnd
      rw [if_pos hrep]
      omega
    by_cases hc : BlockHeader.SIZE + size ≤ freeSpace H buffer bufferLen
    case neg =>
      rw [allocate, if_neg hc, if_pos hrep] at heq
      exact absurd (congrArg Prod.snd heq) (by simp)
    case pos =>
    have hposeq : buffer + (BlockHeader.SIZE + (H buffer).size) =
        blockEnd H buffer := by
      unfold blockEnd; omega
    rw [allocate, if_pos hc, hposeq, Prod.mk.injEq] at heq
    obtain ⟨hH2, haddr⟩ := heq
    rw [Option.some.injEq] at haddr
    subst haddr
    subst hH2
    have hpb : blockEnd H buffer ≠ buffer := by
      unfold blockEnd BlockHeader.SIZE; omega
    have hp0 : blockEnd H buffer ≠ 0 := by
      unfold blockEnd BlockHeader.SIZE; omega
    refine ⟨[], buffer, blockEnd H buffer, [], rfl, Or.inl ⟨rfl, rfl⟩, rfl, rfl,
      ?_, ?_, ?_, ?_, ?_, ?_, ?_, ?_⟩
    · simp [Heap.write, hpb]
    · simp [Heap.write, hpb]
    · simp [Heap.write]
    · simp [Heap.write]
    · intro b hb
      exact absurd hb (List.not_mem_nil b)
    · intro x hx1 hx2
      simp [Heap.write, hx1, hx2]
    · have hn : (((H.write (blockEnd H buffer)
          ⟨size, (H buffer).next, parent⟩).write buffer
          ⟨(H buffer).size, blockEnd H buffer, (H buffer).parent⟩)
          buffer).next = blockEnd H buffer := by
        simp [Heap.write]
      rw [hn]
      refine ⟨rfl, hp0, ?_⟩
      have hn2 : (((H.write (blockEnd H buffer)
          ⟨size, (H buffer).next, parent⟩).write buffer
          ⟨(H buffer).size, blockEnd H buffer, (H buffer).parent⟩)
          (blockEnd H buffer)).next = 0 := by
        simp [Heap.write, hpb, hrep]
      rw [listRep]
      rw [hn2]
    · have hbe : blockEnd (((H.write (blockEnd H buffer)
          ⟨size, (H buffer).next, parent⟩).write buffer
          ⟨(H buffer).size, blockEnd H buffer, (H buffer).parent⟩)) buffer =
          blockEnd H buffer := by
        unfold blockEnd
        simp [Heap.write]
      simp only [List.nil_append]
      rw [geomFrom_cons, hbe]
      refine ⟨le_refl _, ?_⟩
      rw [geomFrom_nil]
      have hbe2 : blockEnd (((H.write (blockEnd H buffer)
          ⟨size, (H buffer).next, parent⟩).write buffer
          ⟨(H buffer).size, blockEnd H buffer, (H buffer).parent⟩))
          (blockEnd H buffer) = blockEnd H buffer + BlockHeader.SIZE + size := by
        unfold blockEnd at hpb ⊢
        simp [Heap.write, hpb]
      rw [hbe2]
      rw [hfs] at hc
      omega
  | cons b rest ih =>
    intro fuel H H2 buffer bufferLen size parent addr hrep hgeom hfuel heq
    obtain ⟨f, rfl⟩ : ∃ f, fuel = f + 1 := ⟨fuel - 1, by omega⟩
    rw [listRep_cons] at hrep
    obtain ⟨hnext, hb0, hrest⟩ := hrep
    have hrestgt : ∀ c ∈ rest, b < c := geomFrom_tail_lt _ _ _ _ _ hgeom
    obtain ⟨hge, hgtail⟩ := hgeom
    have hbR : blockEnd H b ≤ buffer + bufferLen := geomFrom_le_R _ _ _ _ hgtail
    have hfs : freeSpace H buffer bufferLen = b - blockEnd H buffer := by
      unfold freeSpace
      rw [hnext, if_neg hb0]
      unfold blockEnd
      omega
    have hbgt : buffer < b := by
      unfold blockEnd BlockHeader.SIZE at hge
      omega
    by_cases hc : BlockHeader.SIZE + size ≤ freeSpace H buffer bufferLen
    case pos =>
      have hposeq : buffer + (BlockHeader.SIZE + (H buffer).size) =
          blockEnd H buffer := by
        unfold blockEnd; omega
      rw [allocate, if_pos hc, hposeq, hnext, Prod.mk.injEq] at heq
      obtain ⟨hH2, haddr⟩ := heq
      rw [Option.some.injEq] at haddr
      subst haddr
      subst hH2
      have hEb : blockEnd H buffer + BlockHeader.SIZE + size ≤ b := by
        rw [hfs] at hc
        unfold blockEnd at *
        omega
      have hpb : blockEnd H buffer ≠ buffer := by
        unfold blockEnd BlockHeader.SIZE; omega
      have hp0 : blockEnd H buffer ≠ 0 := by
        unfold blockEnd BlockHeader.SIZE; omega
      have hbpos : b ≠ blockEnd H buffer := by
        unfold BlockHeader.SIZE at hEb; omega
      have hbbuf : b ≠ buffer := by omega
      have hcother : ∀ c ∈ rest, c ≠ blockEnd H buffer ∧ c ≠ buffer := by
        intro c hcm
        have := hrestgt c hcm
        unfold BlockHeader.SIZE at hEb
        constructor <;> omega
      refine ⟨[], buffer, blockEnd H buffer, b :: rest, rfl, Or.inl ⟨rfl, rfl⟩,
        rfl, rfl, ?_, ?_, ?_, ?_, ?_, ?_, ?_, ?_⟩
      · simp [Heap.write, hpb]
      · simp [Heap.write, hpb]
      · simp [Heap.write]
      · simp [Heap.write]
      · intro c hcm
        rcases List.mem_cons.mp hcm with rfl | hcm
        · simp [Heap.write, hbpos, hbbuf]
        · obtain ⟨h1, h2⟩ := hcother c hcm
          simp [Heap.write, h1, h2]
      · intro x hx1 hx2
        simp [Heap.write, hx1, hx2]
      · have hn : (((H.write (blockEnd H buffer)
            ⟨size, b, parent⟩).write buffer
            ⟨(H buffer).size, blockEnd H buffer, (H buffer).parent⟩)
            buffer).next = blockEnd H buffer := by
          simp [Heap.write]
        rw [hn]
        refine ⟨rfl, hp0, ?_⟩
        have hn2 : (((H.write (blockEnd H buffer)
            ⟨size, b, parent⟩).write buffer
            ⟨(H buffer).size, blockEnd H buffer, (H buffer).parent⟩)
            (blockEnd H buffer)).next = b := by
          simp [Heap.write, hpb]
        rw [listRep, hn2]
        refine ⟨rfl, hb0, ?_⟩
        have hn3 : (((H.write (blockEnd H buffer)
            ⟨size, b, parent⟩).write buffer
            ⟨(H buffer).size, blockEnd H buffer, (H buffer).parent⟩)
            b).next = (H b).next := by
          simp [Heap.write, hbpos, hbbuf]
        rw [hn3]
        refine listRep_congr H _ rest (H b).next hrest ?_
        intro c hcm
        obtain ⟨h1, h2⟩ := hcother c hcm
        simp [Heap.write, h1, h2]
      · have hbe : blockEnd (((H.write (blockEnd H buffer)
            ⟨size, b, parent⟩).write buffer
            ⟨(H buffer).size, blockEnd H buffer, (H buffer).parent⟩)) buffer =
            blockEnd H buffer := by
          unfold blockEnd
          simp [Heap.write]
        simp only [List.nil_append]
        rw [geomFrom_cons, hbe]
        refine ⟨le_refl _, ?_⟩
        have hbe2 : blockEnd (((H.write (blockEnd H buffer)
            ⟨size, b, parent⟩).write buffer
            ⟨(H buffer).size, blockEnd H buffer, (H buffer).parent⟩))
            (blockEnd H buffer) =
            blockEnd H buffer + BlockHeader.SIZE + size := by
          unfold blockEnd at hpb ⊢
          simp [Heap.write, hpb]
        rw [geomFrom_cons, hbe2]
        refine ⟨hEb, ?_⟩
        have hbe3 : blockEnd (((H.write (blockEnd H buffer)
            ⟨size, b, parent⟩).write buffer
            ⟨(H buffer).size, blockEnd H buffer, (H buffer).parent⟩)) b =
            blockEnd H b := by
          unfold blockEnd at hbpos ⊢
          simp [Heap.write, hbpos, hbbuf]
        rw [hbe3]
        refine geomFrom_congr H _ _ rest _ hgtail ?_
        intro c hcm
        obtain ⟨h1, h2⟩ := hcother c hcm
        simp [Heap.write, h1, h2]
    case neg =>
      have hReq : b + (bufferLen - (b - buffer)) = buffer + bufferLen := by
        unfold blockEnd at hbR
        omega
      have hfuel2 : rest.length < f := by
        simp only [List.length_cons] at hfuel
        omega
      rw [allocate, if_neg hc, hnext, if_neg hb0] at heq
      have hIH := ih f H H2 b (bufferLen - (b - buffer)) size parent addr hrest
        (by rw [hReq]; exact hgtail) hfuel2 heq
      rw [hReq] at hIH
      obtain ⟨bs1, cur, pos, bs2, hsplit, hcur, hpos, haddr, hp_size, hp_par,
        hb_size, hb_par, hmem, hframe, hrepN, hgeomN⟩ := hIH
      have hcurb : b ≤ cur := by
        rcases hcur with ⟨_, rfl⟩ | hin
        · exact le_refl _
        · exact le_of_lt (hrestgt cur (hsplit ▸ List.mem_append_left bs2 hin))
      have hposgt : cur < pos := by
        rw [hpos]
        unfold blockEnd BlockHeader.SIZE
        omega
      have hbufnecur : buffer ≠ cur := by omega
      have hbufnepos : buffer ≠ pos := by omega
      have hH2buf : H2 buffer = H buffer := hframe buffer hbufnepos hbufnecur
      refine ⟨b :: bs1, cur, pos, bs2, by rw [List.cons_append, ← hsplit],
        ?_, hpos, haddr, hp_size, hp_par, by rw [hH2buf], by rw [hH2buf],
        ?_, hframe, ?_, ?_⟩
      · rcases hcur with ⟨_, rfl⟩ | hin
        · exact Or.inr (List.mem_cons_self cur bs1)
        · exact Or.inr (List.mem_cons_of_mem b hin)
      · intro c hcm
        rcases List.mem_cons.mp hcm with rfl | hcm
        · exact ⟨hb_size, hb_par⟩
        · exact hmem c hcm
      · have hn : (H2 buffer).next = b := by rw [hH2buf, hnext]
        rw [List.cons_append, hn]
        exact ⟨rfl, hb0, hrepN⟩
      · have hbe : blockEnd H2 buffer = blockEnd H buffer := by
          unfold blockEnd
          rw [hH2buf]
        rw [List.cons_append, geomFrom_cons, hbe]
        exact ⟨hge, hgeomN⟩

/-! ### What `deallocate` does when walking an actual list

The walk starting at `prev` with `current` the head of the chain `bs`
removes exactly the matching blocks, zeroes their headers, relinks the
survivors behind `prev`, and returns the number removed. -/

theorem deallocate_walk :
    ∀ (bs : List Nat) (fuel : Nat) (H : Heap)
      (R prev current data count e : Nat),
      (H prev).next = current →
      listRep H current bs →
      geomFrom H R e bs →
      allPos H bs →
      prev ∉ bs →
      bs.length < fuel →
      ∃ H2,
        deallocate fuel H prev current data count =
          (H2, count + (bs.filter (blockMatches H data)).length) ∧
        (H2 prev).size = (H prev).size ∧
        (H2 prev).parent = (H prev).parent ∧
        listRep H2 (H2 prev).next
          (bs.filter fun c => !blockMatches H data c) ∧
        geomFrom H2 R e (bs.filter fun c => !blockMatches H data c) ∧
        (∀ c ∈ bs.filter fun c => !blockMatches H data c,
          (H2 c).size = (H c).size ∧ (H2 c).parent = (H c).parent) ∧
        (∀ c ∈ bs.filter (blockMatches H data), H2 c = ⟨0, 0, 0⟩) ∧
        (∀ x, x ≠ prev → x ∉ bs → H2 x = H x) := by
  intro bs
  induction bs with
  | nil =>
    intro fuel H R prev current data count e hprev hrep hgeom hpos hnot hfuel
    obtain ⟨f, rfl⟩ : ∃ f, fuel = f + 1 := ⟨fuel - 1, by omega⟩
    rw [listRep_nil] at hrep
    subst hrep
    refine ⟨H, ?_, rfl, rfl, ?_, ?_, ?_, ?_, ?_⟩
    · rw [deallocate, if_pos rfl]
      simp
    · simp only [List.filter_nil, listRep_nil]
      exact hprev
    · simpa only [List.filter_nil] using hgeom
    · simp
    · simp
    · intro x _ _
      rfl
  | cons b rest ih =>
    intro fuel H R prev current data count e hprev hrep hgeom hpos hnot hfuel
    obtain ⟨f, rfl⟩ : ∃ f, fuel = f + 1 := ⟨fuel - 1, by omega⟩
    rw [listRep_cons] at hrep
    obtain ⟨hcb, hb0, hrest⟩ := hrep
    rw [hcb] at hprev
    rw [hcb]
    have hrestgt : ∀ c ∈ rest, b < c := geomFrom_tail_lt _ _ _ _ _ hgeom
    obtain ⟨hge, hgtail⟩ := hgeom
    have hbpos : 0 < (H b).size := hpos b (List.mem_cons_self b rest)
    have hprevne : prev ≠ b := fun h => hnot (h ▸ List.mem_cons_self b rest)
    have hnotrest : prev ∉ rest := fun h => hnot (List.mem_cons_of_mem b h)
    have hbnotrest : b ∉ rest := fun h => absurd (hrestgt b h) (lt_irrefl b)
    have hposrest : allPos H rest := fun c hc =>
      hpos c (List.mem_cons_of_mem b hc)
    have hfuel2 : rest.length < f := by
      simp only [List.length_cons] at hfuel
      omega
    by_cases hm : 0 < (H b).size ∧
        (b + BlockHeader.SIZE = data ∨ (H b).parent = data)
    case pos =>
      have hbm : blockMatches H data b = true := by
        simp only [blockMatches, Bool.and_eq_true, Bool.or_eq_true,
          decide_eq_true_eq]
        exact hm
      rw [deallocate, if_neg hb0, if_pos hm]
      set Hm := (H.write prev
        ⟨(H prev).size, (H b).next, (H prev).parent⟩).write b ⟨0, 0, 0⟩
        with hHm
      have hHmprev : Hm prev = ⟨(H prev).size, (H b).next, (H prev).parent⟩ := by
        simp [hHm, Heap.write, hprevne]
      have hHmb : Hm b = ⟨0, 0, 0⟩ := by
        simp [hHm, Heap.write]
      have hHmother : ∀ x, x ≠ prev → x ≠ b → Hm x = H x := by
        intro x h1 h2
        simp [hHm, Heap.write, h1, h2]
      have hrestHm : ∀ c ∈ rest, Hm c = H c := fun c hc =>
        hHmother c (fun h => hnotrest (h ▸ hc)) (fun h => hbnotrest (h ▸ hc))
      have hprev2 : (Hm prev).next = (H b).next := by rw [hHmprev]
      have hrep2 : listRep Hm (H b).next rest :=
        listRep_congr H Hm rest _ hrest hrestHm
      have hgeom2 : geomFrom Hm R (blockEnd H b) rest :=
        geomFrom_congr H Hm R rest _ hgtail hrestHm
      have hpos2 : allPos Hm rest := allPos_congr H Hm rest hposrest hrestHm
      obtain ⟨H2, hres, hs, hp, hrepF, hgeomF, hmemF, hzeroF, hframeF⟩ :=
        ih f Hm R prev (H b).next data (count + 1) (blockEnd H b) hprev2
          hrep2 hgeom2 hpos2 hnotrest hfuel2
      have hfeq : rest.filter (blockMatches Hm data) =
          rest.filter (blockMatches H data) :=
        List.filter_congr fun c hc => by
          unfold blockMatches
          rw [hrestHm c hc]
      have hfeq2 : (rest.filter fun c => !blockMatches Hm data c) =
          rest.filter fun c => !blockMatches H data c :=
        List.filter_congr fun c hc => by
          unfold blockMatches
          rw [hrestHm c hc]
      rw [hfeq] at hres
      rw [hfeq2] at hrepF hgeomF hmemF
      rw [hfeq] at hzeroF
      refine ⟨H2, ?_, ?_, ?_, ?_, ?_, ?_, ?_, ?_⟩
      · rw [hres, List.filter_cons_of_pos hbm, Prod.mk.injEq]
        refine ⟨rfl, ?_⟩
        simp only [List.length_cons]
        omega
      · rw [hs, hHmprev]
      · rw [hp, hHmprev]
      · rw [List.filter_cons_of_neg (by simp [hbm])]
        exact hrepF
      · rw [List.filter_cons_of_neg (by simp [hbm])]
        refine geomFrom_mono _ _ _ _ _ hgeomF ?_
        unfold blockEnd
        omega
      · rw [List.filter_cons_of_neg (by simp [hbm])]
        intro c hc
        have hcr : c ∈ rest := List.mem_of_mem_filter hc
        obtain ⟨h1, h2⟩ := hmemF c hc
        rw [hrestHm c hcr] at h1 h2
        exact ⟨h1, h2⟩
      · rw [List.filter_cons_of_pos hbm]
        intro c hc
        rcases List.mem_cons.mp hc with rfl | hc
        · rw [hframeF c (Ne.symm hprevne) hbnotrest, hHmb]
        · exact hzeroF c hc
      · intro x h1 h2
        rw [hframeF x h1 (fun h => h2 (List.mem_cons_of_mem b h)),
          hHmother x h1 (fun h => h2 (h ▸ List.mem_cons_self b rest))]
    case neg =>
      have hbm : blockMatches H data b = false := by
        have hnd := not_or.mp fun h => hm ⟨hbpos, h⟩
        simp [blockMatches, hnd.1, hnd.2]
      rw [deallocate, if_neg hb0, if_neg hm]
      obtain ⟨H2, hres, hs, hp, hrepF, hgeomF, hmemF, hzeroF, hframeF⟩ :=
        ih f H R b (H b).next data count (blockEnd H b) rfl hrest hgtail
          hposrest hbnotrest hfuel2
      have hHp : H2 prev = H prev := hframeF prev hprevne hnotrest
      refine ⟨H2, ?_, ?_, ?_, ?_, ?_, ?_, ?_, ?_⟩
      · rw [hres, List.filter_cons_of_neg (by simp [hbm])]
      · rw [hHp]
      · rw [hHp]
      · rw [List.filter_cons_of_pos (by simp [hbm])]
        refine ⟨by rw [hHp, hprev], hb0, hrepF⟩
      · rw [List.filter_cons_of_pos (by simp [hbm]), geomFrom_cons]
        have hbe : blockEnd H2 b = blockEnd H b := by
          unfold blockEnd
          rw [hs]
        rw [hbe]
        exact ⟨hge, hgeomF⟩
      · rw [List.filter_cons_of_pos (by simp [hbm])]
        intro c hc
        rcases List.mem_cons.mp hc with rfl | hc
        · exact ⟨hs, hp⟩
        · exact hmemF c hc
      · rw [List.filter_cons_of_neg (by simp [hbm])]
        exact hzeroF
      · intro x h1 h2
        exact hframeF x (fun h => h2 (h ▸ List.mem_cons_self b rest))
          (fun h => h2 (List.mem_cons_of_mem b h))

/-! ### Facade-level lemmas over well-formed regions -/

theorem WF_length_lt (a : Arena) (bs : List Nat) (h : a.WF bs) :
    bs.length < a.len + 1 := by
  obtain ⟨_, _, _, hgeom, _, _⟩ := h
  have := geomFrom_length _ _ _ _ hgeom
  unfold BlockHeader.SIZE at this
  omega

/-- A well-formed tail is pairwise non-overlapping: every block ends at
or before the start of every later block. -/
theorem geomFrom_pairwise (H : Heap) (R : Nat) :
    ∀ (bs : List Nat) (e : Nat), geomFrom H R e bs →
      List.Pairwise (fun x y => blockEnd H x ≤ y) bs := by
  intro bs
  induction bs with
  | nil => intro e _; exact List.Pairwise.nil
  | cons b bs ih =>
    intro e h
    exact List.Pairwise.cons (geomFrom_mem_le H R bs _ h.2) (ih _ h.2)

theorem Arena.alloc_eq_allocMore (a : Arena) (size : Nat) :
    a.alloc size = a.allocMore size 0 := rfl

theorem Arena.allocMore_none (a : Arena) (size parent : Nat)
    (h : (a.allocMore size parent).2 = none) :
    (a.allocMore size parent).1 = a := by
  have h2 : (allocate (a.len + 1) a.heap a.base a.len size parent).2 = none := h
  show ({ a with heap :=
    (allocate (a.len + 1) a.heap a.base a.len size parent).1 } : Arena) = a
  rw [allocate_none _ _ _ _ _ _ h2]

theorem Arena.allocMore_some_WF (a : Arena) (bs : List Nat)
    (size parent addr : Nat) (a2 : Arena)
    (hwf : a.WF bs) (hsize : 0 < size)
    (heq : a.allocMore size parent = (a2, some addr)) :
    ∃ bs1 pos bs2, bs = bs1 ++ bs2 ∧ a2.WF (bs1 ++ pos :: bs2) := by
  have hfuel := WF_length_lt a bs hwf
  obtain ⟨hb0, hsent, hrep, hgeom, hposl, hhead⟩ := hwf
  have hbe : blockEnd a.heap a.base = a.base + BlockHeader.SIZE := by
    unfold blockEnd
    rw [hsent]
    omega
  have hgeom2 : geomFrom a.heap (a.base + a.len) (blockEnd a.heap a.base) bs := by
    rw [hbe]
    exact hgeom
  unfold Arena.allocMore at heq
  rw [Prod.mk.injEq] at heq
  obtain ⟨ha2, hsome⟩ := heq
  subst ha2
  have hcore : allocate (a.len + 1) a.heap a.base a.len size parent =
      ((allocate (a.len + 1) a.heap a.base a.len size parent).1, some addr) := by
    rw [← hsome]
  obtain ⟨bs1, cur, pos, bs2, hsplit, hcur, hpos, haddr, hp_size, hp_par,
    hbuf_size, hbuf_par, hmem, hframe, hrepN, hgeomN⟩ :=
    allocate_success bs (a.len + 1) a.heap _ a.base a.len size parent addr
      hrep hgeom2 hfuel hcore
  refine ⟨bs1, pos, bs2, hsplit, hb0, ?_, hrepN, ?_, ?_, ?_⟩
  · rw [hbuf_size, hsent]
  · have hbe2 : blockEnd
        (allocate (a.len + 1) a.heap a.base a.len size parent).1 a.base =
        a.base + BlockHeader.SIZE := by
      unfold blockEnd
      rw [hbuf_size, hsent]
      omega
    rw [← hbe2]
    exact hgeomN
  · intro c hc
    rcases List.mem_append.mp hc with hc1 | hc2
    · have hcbs : c ∈ bs := hsplit ▸ List.mem_append_left bs2 hc1
      rw [(hmem c hcbs).1]
      exact hposl c hcbs
    · rcases List.mem_cons.mp hc2 with rfl | hc3
      · rw [hp_size]
        exact hsize
      · have hcbs : c ∈ bs := hsplit ▸ List.mem_append_right bs1 hc3
        rw [(hmem c hcbs).1]
        exact hposl c hcbs
  · rcases hcur with ⟨hnil, hcurb⟩ | hmem1
    · subst hnil
      left
      rw [List.nil_append, List.head?_cons, hpos, hcurb, hbe]
    · have hbs1ne : bs1 ≠ [] := List.ne_nil_of_mem hmem1
      obtain ⟨c0, bs1t, rfl⟩ := List.exists_cons_of_ne_nil hbs1ne
      rcases hhead with hh | hh
      · left
        rw [hsplit, List.cons_append, List.head?_cons, Option.some.injEq] at hh
        rw [List.cons_append, List.head?_cons, hh]
      · right
        have hcur_bs : cur ∈ bs := hsplit ▸ List.mem_append_left bs2 hmem1
        have hge_cur : a.base + BlockHeader.SIZE ≤ cur :=
          geomFrom_mem_le _ _ _ _ hgeom cur hcur_bs
        have hne2 : a.base + BlockHeader.SIZE ≠ cur := by
          intro h
          have hc := hposl cur hcur_bs
          rw [← h, hh] at hc
          simp at hc
        have hne1 : a.base + BlockHeader.SIZE ≠ pos := by
          rw [hpos]
          unfold blockEnd BlockHeader.SIZE at hge_cur ⊢
          omega
        show (allocate (a.len + 1) a.heap a.base a.len size parent).1
          (a.base + BlockHeader.SIZE) = ⟨0, 0, 0⟩
        rw [hframe _ hne1 hne2, hh]

theorem Arena.dealloc_tombstone (a : Arena) (bs : List Nat) (data : Nat)
    (hwf : a.WF bs)
    (hts : a.heap (a.base + BlockHeader.SIZE) = ⟨0, 0, 0⟩) :
    a.dealloc data = (a, false) := by
  obtain ⟨hb0, _, _, hgeom, _, _⟩ := hwf
  have hlen : BlockHeader.SIZE ≤ a.len := by
    have h1 := geomFrom_le_R _ _ _ _ hgeom
    omega
  obtain ⟨l, hl⟩ : ∃ l, a.len = l + 1 := ⟨a.len - 1, by
    unfold BlockHeader.SIZE at hlen; omega⟩
  have hcur0 : a.base + BlockHeader.SIZE ≠ 0 := by
    unfold BlockHeader.SIZE
    omega
  have hnomatch : ¬(0 < (a.heap (a.base + BlockHeader.SIZE)).size ∧
      (a.base + BlockHeader.SIZE + BlockHeader.SIZE = data ∨
        (a.heap (a.base + BlockHeader.SIZE)).parent = data)) := by
    rw [hts]
    simp
  have hsteps : deallocate (a.len + 1) a.heap a.base
      (a.base + BlockHeader.SIZE) data 0 = (a.heap, 0) := by
    rw [deallocate, if_neg hcur0, if_neg hnomatch, hts, hl, deallocate]
    simp
  simp only [Arena.dealloc]
  rw [hsteps]
  rfl

theorem Arena.dealloc_walkable (a : Arena) (bs : List Nat) (data : Nat)
    (hwf : a.WF bs) (hhd : bs.head? = some (a.base + BlockHeader.SIZE)) :
    ∃ H2,
      a.dealloc data =
        ({ a with heap := H2 },
          decide (0 < (bs.filter (blockMatches a.heap data)).length)) ∧
      ({ a with heap := H2 } : Arena).WF
        (bs.filter fun c => !blockMatches a.heap data c) ∧
      (∀ c ∈ bs.filter fun c => !blockMatches a.heap data c,
        (H2 c).size = (a.heap c).size ∧ (H2 c).parent = (a.heap c).parent) ∧
      (∀ c ∈ bs.filter (blockMatches a.heap data), H2 c = ⟨0, 0, 0⟩) := by
  have hfuel := WF_length_lt a bs hwf
  obtain ⟨hb0, hsent, hrep, hgeom, hposl, hhead⟩ := hwf
  have hmemge := geomFrom_mem_le _ _ _ _ hgeom
  have hnotin : a.base ∉ bs := by
    intro h
    have := hmemge _ h
    unfold BlockHeader.SIZE at this
    omega
  cases bs with
  | nil => simp at hhd
  | cons b0 rest =>
  rw [List.head?_cons, Option.some.injEq] at hhd
  obtain ⟨hnext, hb0ne, hresttail⟩ := (listRep_cons _ _ _ _).mp hrep
  have hrep2 : listRep a.heap b0 (b0 :: rest) := by
    rw [listRep_cons]
    exact ⟨rfl, hb0ne, hresttail⟩
  have hcur : a.base + BlockHeader.SIZE = b0 := hhd.symm
  obtain ⟨H2, hres, hs, hp, hrepF, hgeomF, hmemF, hzeroF, hframeF⟩ :=
    deallocate_walk (b0 :: rest) (a.len + 1) a.heap (a.base + a.len) a.base
      b0 data 0 (a.base + BlockHeader.SIZE) hnext hrep2 hgeom hposl hnotin
      hfuel
  refine ⟨H2, ?_, ⟨hb0, ?_, hrepF, hgeomF, ?_, ?_⟩, hmemF, hzeroF⟩
  · simp only [Arena.dealloc]
    rw [hcur, hres]
    simp
  · rw [hs, hsent]
  · intro c hc
    have hcbs := List.mem_of_mem_filter hc
    rw [(hmemF c hc).1]
    exact hposl c hcbs
  · by_cases hbm : blockMatches a.heap data b0 = true
    · right
      show H2 (a.base + BlockHeader.SIZE) = ⟨0, 0, 0⟩
      rw [hcur]
      refine hzeroF b0 ?_
      rw [List.filter_cons_of_pos hbm]
      exact List.mem_cons_self b0 _
    · left
      have hbmf : blockMatches a.heap data b0 = false :=
        Bool.eq_false_iff.mpr hbm
      rw [List.filter_cons_of_pos (by simp [hbmf]), List.head?_cons]
      exact congrArg some hcur.symm

theorem Arena.dealloc_WF (a : Arena) (bs : List Nat) (data : Nat)
    (hwf : a.WF bs) : ∃ bs2, ((a.dealloc data).1).WF bs2 := by
  rcases hwf.2.2.2.2.2 with hh | hh
  · obtain ⟨H2, heq, hwf2, _, _⟩ := Arena.dealloc_walkable a bs data hwf hh
    rw [heq]
    exact ⟨_, hwf2⟩
  · rw [Arena.dealloc_tombstone a bs data hwf hh]
    exact ⟨bs, hwf⟩

instance Op.sizeOk.inst : (op : Op) → Decidable op.sizeOk
  | .alloc _ => by unfold Op.sizeOk; infer_instance
  | .allocMore _ _ => by unfold Op.sizeOk; infer_instance
  | .dealloc _ => by unfold Op.sizeOk; infer_instance

/-- The zero-filled guarded region is well-formed with the empty list. -/
theorem Arena.init_WF (base len : Nat) (hb : 0 < base)
    (hlen : BlockHeader.SIZE ≤ len) : (Arena.init base len).WF [] := by
  refine ⟨hb, rfl, rfl, ?_, ?_, Or.inr rfl⟩
  · show base + BlockHeader.SIZE ≤ base + len
    omega
  · intro b hbm
    cases hbm

theorem Arena.run_base : ∀ (ops : List Op) (a : Arena),
    (a.run ops).base = a.base ∧ (a.run ops).len = a.len := by
  intro ops
  induction ops with
  | nil => intro a; exact ⟨rfl, rfl⟩
  | cons op ops ih =>
    intro a
    have hstep : (a.step op).base = a.base ∧ (a.step op).len = a.len := by
      cases op with
      | alloc size => exact ⟨rfl, rfl⟩
      | allocMore size parent => exact ⟨rfl, rfl⟩
      | dealloc data => exact ⟨rfl, rfl⟩
    have := ih (a.step op)
    exact ⟨this.1.trans hstep.1, this.2.trans hstep.2⟩

theorem Arena.step_WF (a : Arena) (bs : List Nat) (op : Op)
    (hwf : a.WF bs) (hok : op.sizeOk) : ∃ bs2, (a.step op).WF bs2 := by
  cases op with
  | alloc size =>
    show ∃ bs2, ((a.alloc size).1).WF bs2
    rw [Arena.alloc_eq_allocMore]
    rcases hR : a.allocMore size 0 with ⟨a2, r⟩
    cases r with
    | none =>
      have h1 : (a.allocMore size 0).1 = a :=
        Arena.allocMore_none a size 0 (by rw [hR])
      have h2 : a2 = a := by rw [← h1, hR]
      exact ⟨bs, h2 ▸ hwf⟩
    | some addr =>
      obtain ⟨bs1, pos, bs2, _, hwf2⟩ :=
        Arena.allocMore_some_WF a bs size 0 addr a2 hwf hok hR
      exact ⟨_, hwf2⟩
  | allocMore size parent =>
    show ∃ bs2, ((a.allocMore size parent).1).WF bs2
    rcases hR : a.allocMore size parent with ⟨a2, r⟩
    cases r with
    | none =>
      have h1 : (a.allocMore size parent).1 = a :=
        Arena.allocMore_none a size parent (by rw [hR])
      have h2 : a2 = a := by rw [← h1, hR]
      exact ⟨bs, h2 ▸ hwf⟩
    | some addr =>
      obtain ⟨bs1, pos, bs2, _, hwf2⟩ :=
        Arena.allocMore_some_WF a bs size parent addr a2 hwf hok hR
      exact ⟨_, hwf2⟩
  | dealloc data => exact Arena.dealloc_WF a bs data hwf

theorem Arena.run_WF :
    ∀ (ops : List Op) (a : Arena) (bs : List Nat), a.WF bs →
      (∀ op ∈ ops, op.sizeOk) → ∃ bs2, (a.run ops).WF bs2 := by
  intro ops
  induction ops with
  | nil => intro a bs hwf _; exact ⟨bs, hwf⟩
  | cons op ops ih =>
    intro a bs hwf hok
    obtain ⟨bs1, h1⟩ :=
      Arena.step_WF a bs op hwf (hok op (List.mem_cons_self op ops))
    exact ih (a.step op) bs1 h1 fun o ho => hok o (List.mem_cons_of_mem op ho)

/-- The structural content of a successful allocation needed without any
positivity assumption: the list gains exactly the node `pos` at its
sorted position and keeps its geometry inside the region. -/
theorem Arena.allocMore_success_pack (a : Arena) (bs : List Nat)
    (size parent addr : Nat) (a2 : Arena) (hwf : a.WF bs)
    (heq : a.allocMore size parent = (a2, some addr)) :
    ∃ bs1 pos bs2, bs = bs1 ++ bs2 ∧
      listRep a2.heap (a2.heap a2.base).next (bs1 ++ pos :: bs2) ∧
      geomFrom a2.heap (a2.base + a2.len) (a2.base + BlockHeader.SIZE)
        (bs1 ++ pos :: bs2) := by
  have hfuel := WF_length_lt a bs hwf
  obtain ⟨hb0, hsent, hrep, hgeom, hposl, hhead⟩ := hwf
  have hbe : blockEnd a.heap a.base = a.base + BlockHeader.SIZE := by
    unfold blockEnd
    rw [hsent]
    omega
  have hgeom2 : geomFrom a.heap (a.base + a.len) (blockEnd a.heap a.base) bs := by
    rw [hbe]
    exact hgeom
  unfold Arena.allocMore at heq
  rw [Prod.mk.injEq] at heq
  obtain ⟨ha2, hsome⟩ := heq
  subst ha2
  have hcore : allocate (a.len + 1) a.heap a.base a.len size parent =
      ((allocate (a.len + 1) a.heap a.base a.len size parent).1, some addr) := by
    rw [← hsome]
  obtain ⟨bs1, cur, pos, bs2, hsplit, hcur, hpos, haddr, hp_size, hp_par,
    hbuf_size, hbuf_par, hmem, hframe, hrepN, hgeomN⟩ :=
    allocate_success bs (a.len + 1) a.heap _ a.base a.len size parent addr
      hrep hgeom2 hfuel hcore
  refine ⟨bs1, pos, bs2, hsplit, hrepN, ?_⟩
  have hbe2 : blockEnd
      (allocate (a.len + 1) a.heap a.base a.len size parent).1 a.base =
      a.base + BlockHeader.SIZE := by
    unfold blockEnd
    rw [hbuf_size, hsent]
    omega
  rw [← hbe2]
  exact hgeomN

/-! ### Claim theorems -/

/-- C3: for every well-formed block list over a guarded region and every
requested size, `allocate(size)` returns an address if and only if some
gap in the current list (between a block's end and the next block's
start, or between the last block's end and the end of the guarded
region) is at least header size + size; otherwise it returns no result,
and the first sufficiently large gap in address order is the one used
(the returned payload address is that gap's start plus the header
size). -/
theorem C3_allocate_iff_gap (a : Arena) (bs : List Nat) (size : Nat)
    (hwf : a.WF bs) :
    ((a.alloc size).2.isSome ↔
      ∃ g ∈ specGaps a.heap (a.base + a.len) (a.base + BlockHeader.SIZE) bs,
        BlockHeader.SIZE + size ≤ g.2) ∧
    (a.alloc size).2 =
      ((specGaps a.heap (a.base + a.len) (a.base + BlockHeader.SIZE) bs).find?
          (fun g => decide (BlockHeader.SIZE + size ≤ g.2))).map
        (fun g => g.1 + BlockHeader.SIZE) := by
  have hfuel := WF_length_lt a bs hwf
  obtain ⟨hb0, hsent, hrep, hgeom, hposl, hhead⟩ := hwf
  have hbe : blockEnd a.heap a.base = a.base + BlockHeader.SIZE := by
    unfold blockEnd
    rw [hsent]
    omega
  have hgeom2 : geomFrom a.heap (a.base + a.len) (blockEnd a.heap a.base) bs := by
    rw [hbe]
    exact hgeom
  have hcore := allocate_find bs (a.len + 1) a.heap a.base a.len size 0
    hrep hgeom2 hfuel
  rw [hbe] at hcore
  have hfac : (a.alloc size).2 =
      (allocate (a.len + 1) a.heap a.base a.len size 0).2 := rfl
  refine ⟨?_, by rw [hfac, hcore]⟩
  rw [hfac, hcore]
  simp [List.find?_isSome]

/-- C3 witness: a fresh 99-byte guarded region at base 1, request 4. -/
theorem C3_witness :
    ((Arena.init 1 99).alloc 4).2 =
      ((specGaps (Arena.init 1 99).heap
          ((Arena.init 1 99).base + (Arena.init 1 99).len)
          ((Arena.init 1 99).base + BlockHeader.SIZE) []).find?
          (fun g => decide (BlockHeader.SIZE + 4 ≤ g.2))).map
        (fun g => g.1 + BlockHeader.SIZE) :=
  (C3_allocate_iff_gap (Arena.init 1 99) [] 4 (by decide)).2

/-- C4: if `allocate(s)` or `allocate_more(s, parent)` succeeds on a
well-formed (address-sorted, non-overlapping) block list, the list
afterwards has exactly one more node, remains strictly sorted by start
address, and no two blocks overlap (every block's end is at or before
every later block's start). -/
theorem C4_alloc_inserts_one_sorted (a a2 : Arena) (bs : List Nat)
    (size parent addr : Nat) (hwf : a.WF bs)
    (hsucc : a.alloc size = (a2, some addr) ∨
      a.allocMore size parent = (a2, some addr)) :
    ∃ bs2, listRep a2.heap (a2.heap a2.base).next bs2 ∧
      bs2.length = bs.length + 1 ∧
      List.Pairwise (· < ·) bs2 ∧
      List.Pairwise (fun x y => blockEnd a2.heap x ≤ y) bs2 := by
  have hpack : ∃ bs1 pos bs2, bs = bs1 ++ bs2 ∧
      listRep a2.heap (a2.heap a2.base).next (bs1 ++ pos :: bs2) ∧
      geomFrom a2.heap (a2.base + a2.len) (a2.base + BlockHeader.SIZE)
        (bs1 ++ pos :: bs2) := by
    rcases hsucc with h | h
    · exact Arena.allocMore_success_pack a bs size 0 addr a2 hwf h
    · exact Arena.allocMore_success_pack a bs size parent addr a2 hwf h
  obtain ⟨bs1, pos, bs2, hsplit, hrepN, hgeomN⟩ := hpack
  refine ⟨bs1 ++ pos :: bs2, hrepN, ?_, ?_, ?_⟩
  · rw [hsplit]
    simp only [List.length_append, List.length_cons]
    omega
  · have hpw := geomFrom_pairwise _ _ _ _ hgeomN
    exact hpw.imp fun hxy => by
      unfold blockEnd BlockHeader.SIZE at hxy
      omega
  · exact geomFrom_pairwise _ _ _ _ hgeomN

/-- C4 witness: the first allocation on a fresh region. -/
theorem C4_witness :
    ∃ bs2, listRep (((Arena.init 1 99).alloc 4).1).heap
        (((((Arena.init 1 99).alloc 4).1).heap
          (((Arena.init 1 99).alloc 4).1).base).next) bs2 ∧
      bs2.length = ([] : List Nat).length + 1 ∧
      List.Pairwise (· < ·) bs2 ∧
      List.Pairwise
        (fun x y => blockEnd (((Arena.init 1 99).alloc 4).1).heap x ≤ y)
        bs2 :=
  C4_alloc_inserts_one_sorted (Arena.init 1 99) ((Arena.init 1 99).alloc 4).1
    [] 4 0 49 (by decide) (Or.inl rfl)

/-- C10: whenever `allocate` or `allocate_more` returns no result, the
guarded region is unchanged: the failure paths of `allocate` perform no
write at all, so every header and payload byte is exactly as before. -/
theorem C10_failed_alloc_leaves_region_unchanged (a : Arena)
    (size parent : Nat) :
    ((a.alloc size).2 = none → (a.alloc size).1 = a) ∧
    ((a.allocMore size parent).2 = none → (a.allocMore size parent).1 = a) :=
  ⟨fun h => Arena.allocMore_none a size 0 h,
    fun h => Arena.allocMore_none a size parent h⟩

/-- C10 witness: after one allocation of 4 bytes, a request of 100 bytes
fails on the 99-byte region and leaves the state unchanged. -/
theorem C10_witness :
    ((((Arena.init 1 99).alloc 4).1.alloc 100).2 = none) ∧
    (((Arena.init 1 99).alloc 4).1.alloc 100).1 =
      ((Arena.init 1 99).alloc 4).1 :=
  ⟨by decide,
    (C10_failed_alloc_leaves_region_unchanged (((Arena.init 1 99).alloc 4).1)
      100 0).1 (by decide)⟩

/-- C5 counterexample: the claim fails as stated, because `allocate(0)`
succeeds and links a block of size 0 into the live list: after the
single operation `alloc 0` from the zero-initialized arena, the live
list reachable from the head sentinel is `[25]` and that block's size is
0. -/
theorem C5_counterexample :
    listRep ((Arena.init 1 99).run [Op.alloc 0]).heap
      ((((Arena.init 1 99).run [Op.alloc 0]).heap 1).next) [25] ∧
    (((Arena.init 1 99).run [Op.alloc 0]).heap 25).size = 0 := by
  decide

/-- C5 amended: for every arena state reachable from the zero-initialized
arena by operations whose allocation requests are all positive, no block
in the live list other than the head sentinel has size 0. -/
theorem C5_no_zero_size_in_live_list (base len : Nat) (ops : List Op)
    (hb : 0 < base) (hlen : BlockHeader.SIZE ≤ len)
    (hok : ∀ op ∈ ops, op.sizeOk) :
    ∃ bs, listRep ((Arena.init base len).run ops).heap
        ((((Arena.init base len).run ops).heap base).next) bs ∧
      ∀ b ∈ bs, (((Arena.init base len).run ops).heap b).size ≠ 0 := by
  obtain ⟨bs, hwf⟩ := Arena.run_WF ops (Arena.init base len) []
    (Arena.init_WF base len hb hlen) hok
  have hbase := (Arena.run_base ops (Arena.init base len)).1
  refine ⟨bs, ?_, ?_⟩
  · have h := hwf.2.2.1
    rw [hbase] at h
    exact h
  · intro b hbm
    have := hwf.2.2.2.2.1 b hbm
    omega

/-- C5 witness: an allocate/deallocate pair with positive size. -/
theorem C5_witness :
    ∃ bs, listRep ((Arena.init 1 99).run
        [Op.alloc 4, Op.dealloc 49]).heap
        ((((Arena.init 1 99).run [Op.alloc 4, Op.dealloc 49]).heap 1).next)
        bs ∧
      ∀ b ∈ bs,
        (((Arena.init 1 99).run [Op.alloc 4, Op.dealloc 49]).heap b).size ≠
          0 :=
  C5_no_zero_size_in_live_list 1 99 [Op.alloc 4, Op.dealloc 49] (by decide)
    (by decide) (by decide)

/-- C1: the claim fails on the code.  `Allocator::deallocate` starts its
walk at the fixed address `base + BlockHeader::SIZE` instead of the head
sentinel's successor.  After `alloc 4` (block at 25, payload 49),
`alloc 4` (block at 53, payload 77) and `dealloc 49`, the header at 25
is zeroed while the sentinel's successor is the live block at 53, whose
payload address is exactly 77; the spec's walk would remove it, but the
code's walk reads the zeroed header at 25, stops, removes nothing (the
heap is untouched at 1 and 53) and the facade returns `false`. -/
theorem C1_deallocate_misses_reachable_block :
    listRep ((Arena.init 1 99).run
        [Op.alloc 4, Op.alloc 4, Op.dealloc 49]).heap
      ((((Arena.init 1 99).run
        [Op.alloc 4, Op.alloc 4, Op.dealloc 49]).heap 1).next) [53] ∧
    (((Arena.init 1 99).run
        [Op.alloc 4, Op.alloc 4, Op.dealloc 49]).heap 53).size = 4 ∧
    53 + BlockHeader.SIZE = 77 ∧
    (((Arena.init 1 99).run
        [Op.alloc 4, Op.alloc 4, Op.dealloc 49]).dealloc 77).2 = false ∧
    ((((Arena.init 1 99).run
        [Op.alloc 4, Op.alloc 4, Op.dealloc 49]).dealloc 77).1.heap 1).next =
      53 ∧
    ((((Arena.init 1 99).run
        [Op.alloc 4, Op.alloc 4, Op.dealloc 49]).dealloc 77).1.heap 53).size =
      4 := by
  decide

/-- C2: the claim fails on the code.  Both allocations from the fresh
arena return addresses (49 and 77); after `dealloc 49` returns `true`,
the block behind 77 is still live and was never deallocated, yet
`dealloc 77` returns `false`, because the walk starts at the zeroed
header at address 25 rather than at the sentinel's successor. -/
theorem C2_dealloc_live_address_returns_false :
    ((Arena.init 1 99).alloc 4).2 = some 49 ∧
    (((Arena.init 1 99).alloc 4).1.alloc 4).2 = some 77 ∧
    (((Arena.init 1 99).run [Op.alloc 4, Op.alloc 4]).dealloc 49).2 = true ∧
    ((((Arena.init 1 99).run [Op.alloc 4, Op.alloc 4]).dealloc 49).1.heap
        53).size = 4 ∧
    53 + BlockHeader.SIZE = 77 ∧
    (((((Arena.init 1 99).run [Op.alloc 4, Op.alloc 4]).dealloc 49).1).dealloc
        77).2 = false := by
  decide

/-- C7: the claim fails on the code.  On a 199-byte region, `alloc 40`
returns 49, `alloc 4` returns the parent payload 113, and
`allocMore 4 113` returns the child payload 141.  After the unrelated
`dealloc 49` (which returns `true` and zeroes the header at 25), both
parent (at 89) and child (at 117) are still live, yet
`deallocate(child)` returns `false` instead of `true`: the walk starts
at the zeroed header at 25 and sees no block at all. -/
theorem C7_dealloc_child_returns_false_though_live :
    (((Arena.init 1 199).run [Op.alloc 40]).alloc 4).2 = some 113 ∧
    (((Arena.init 1 199).run [Op.alloc 40, Op.alloc 4]).allocMore 4 113).2 =
      some 141 ∧
    (((Arena.init 1 199).run
        [Op.alloc 40, Op.alloc 4, Op.allocMore 4 113]).dealloc 49).2 = true ∧
    ((((Arena.init 1 199).run
        [Op.alloc 40, Op.alloc 4, Op.allocMore 4 113]).dealloc 49).1.heap
        1).next = 89 ∧
    ((((Arena.init 1 199).run
        [Op.alloc 40, Op.alloc 4, Op.allocMore 4 113]).dealloc 49).1.heap
        89).next = 117 ∧
    ((((Arena.init 1 199).run
        [Op.alloc 40, Op.alloc 4, Op.allocMore 4 113]).dealloc 49).1.heap
        117).size = 4 ∧
    ((((Arena.init 1 199).run
        [Op.alloc 40, Op.alloc 4, Op.allocMore 4 113]).dealloc 49).1.heap
        117).parent = 113 ∧
    117 + BlockHeader.SIZE = 141 ∧
    (((((Arena.init 1 199).run
        [Op.alloc 40, Op.alloc 4, Op.allocMore 4 113]).dealloc 49).1).dealloc
        141).2 = false := by
  decide

/-- C8: the claim fails on the code.  k = 2 allocations from the fresh
arena return 49 and 77; deallocating them in allocation order (a
permutation of the two addresses) does NOT leave only the head sentinel:
the first `dealloc` tombstones the header at 25, the second becomes a
no-op, and the block at 53 stays linked from the sentinel forever. -/
theorem C8_roundtrip_leaves_live_block :
    ((Arena.init 1 99).alloc 4).2 = some 49 ∧
    (((Arena.init 1 99).alloc 4).1.alloc 4).2 = some 77 ∧
    listRep ((Arena.init 1 99).run
        [Op.alloc 4, Op.alloc 4, Op.dealloc 49, Op.dealloc 77]).heap
      ((((Arena.init 1 99).run
        [Op.alloc 4, Op.alloc 4, Op.dealloc 49, Op.dealloc 77]).heap 1).next)
      [53] ∧
    (((Arena.init 1 99).run
        [Op.alloc 4, Op.alloc 4, Op.dealloc 49, Op.dealloc 77]).heap
        53).size = 4 := by
  decide

/-- C6 counterexample: the claim fails as stated when the child has a
child of its own.  On a 199-byte region: `alloc 4` twice (second returns
the parent payload 77), `allocMore 4 77` returns the child payload 105,
and `allocMore 4 105` creates a grandchild grouped under the child.
`dealloc 77` removes the parent and the child and returns `true`, but
the subsequent `dealloc 105` returns `true` as well (it removes the
grandchild, whose `parent` field equals 105), not `false` as
claimed. -/
theorem C6_counterexample :
    (((Arena.init 1 199).run [Op.alloc 4]).alloc 4).2 = some 77 ∧
    (((Arena.init 1 199).run [Op.alloc 4, Op.alloc 4]).allocMore 4 77).2 =
      some 105 ∧
    (((Arena.init 1 199).run
        [Op.alloc 4, Op.alloc 4, Op.allocMore 4 77]).allocMore 4 105).2 =
      some 133 ∧
    (((Arena.init 1 199).run
        [Op.alloc 4, Op.alloc 4, Op.allocMore 4 77, Op.allocMore 4 105]
        ).dealloc 77).2 = true ∧
    ((((Arena.init 1 199).run
        [Op.alloc 4, Op.alloc 4, Op.allocMore 4 77, Op.allocMore 4 105]
        ).dealloc 77).1.dealloc 105).2 = true := by
  decide

/-- C6 amended: for every well-formed state, parent payload address and
child payload address where every live block whose payload address is
the child is grouped under the parent (which is what `allocate_more`
stamps) and no live block is itself grouped under the child (no
grandchildren through the child), after `deallocate(parent)` a
subsequent `deallocate(child)` returns false. -/
theorem C6_cascade_invalidates_child (a : Arena) (bs : List Nat)
    (parentData childData : Nat) (hwf : a.WF bs)
    (hchild : ∀ b ∈ bs, b + BlockHeader.SIZE = childData →
      (a.heap b).parent = parentData)
    (hnogc : ∀ b ∈ bs, (a.heap b).parent ≠ childData) :
    (((a.dealloc parentData).1).dealloc childData).2 = false := by
  rcases hwf.2.2.2.2.2 with hh | hh
  · obtain ⟨H2, heq1, hwf2, hmem2, hzero2⟩ :=
      Arena.dealloc_walkable a bs parentData hwf hh
    rw [heq1]
    show (({ a with heap := H2 } : Arena).dealloc childData).2 = false
    rcases hwf2.2.2.2.2.2 with hh2 | hh2
    · obtain ⟨H3, heq2, _, _, _⟩ :=
        Arena.dealloc_walkable _ _ childData hwf2 hh2
      rw [heq2]
      show decide (0 <
        ((bs.filter fun c => !blockMatches a.heap parentData c).filter
          (blockMatches H2 childData)).length) = false
      have hempty :
          (bs.filter fun c => !blockMatches a.heap parentData c).filter
            (blockMatches H2 childData) = [] := by
        rw [List.filter_eq_nil_iff]
        intro c hc
        have hcbs : c ∈ bs := List.mem_of_mem_filter hc
        obtain ⟨hsz, hpar⟩ := hmem2 c hc
        have hsurv : blockMatches a.heap parentData c = false := by
          have := List.of_mem_filter hc
          simpa using this
        have hcp : 0 < (a.heap c).size := hwf.2.2.2.2.1 c hcbs
        have hparent_ne : (a.heap c).parent ≠ parentData := by
          intro hP
          have hT : blockMatches a.heap parentData c = true := by
            simp only [blockMatches, Bool.and_eq_true, Bool.or_eq_true,
              decide_eq_true_eq]
            exact ⟨hcp, Or.inr hP⟩
          rw [hT] at hsurv
          cases hsurv
        intro hcontra
        simp only [blockMatches, Bool.and_eq_true, Bool.or_eq_true,
          decide_eq_true_eq] at hcontra
        rcases hcontra.2 with hpay | hpar2
        · exact hparent_ne (hchild c hcbs hpay)
        · rw [hpar] at hpar2
          exact hnogc c hcbs hpar2
      rw [hempty]
      rfl
    · rw [Arena.dealloc_tombstone _ _ childData hwf2 hh2]
  · rw [Arena.dealloc_tombstone a bs parentData hwf hh]
    show (a.dealloc childData).2 = false
    rw [Arena.dealloc_tombstone a bs childData hwf hh]

/-- C6 witness: a parent with a single child and no grandchildren. -/
theorem C6_witness :
    ((((Arena.init 1 99).run [Op.alloc 4, Op.allocMore 4 49]).dealloc
      49).1.dealloc 77).2 = false :=
  C6_cascade_invalidates_child
    ((Arena.init 1 99).run [Op.alloc 4, Op.allocMore 4 49]) [25, 53] 49 77
    (by decide) (by decide) (by decide)

/-- C9: with the lock word free, every facade operation completes; the
handle it uses exposes the guarded region starting `MemoryMutex.SIZE`
bytes past the arena base with length `N - MemoryMutex.SIZE`, and since
the handle's release runs when it goes out of scope at the end of the
operation, the lock word is `false` again after each of `allocate`,
`allocate_more` and `deallocate` returns. -/
theorem C9_lock_released_after_ops (m : MemoryState) (s p d : Nat)
    (h : m.lockWord = false) :
    (∀ g m1, MemoryMutex.lock m = some (g, m1) →
      g.buffer = m.base + MemoryMutex.SIZE ∧
      g.size = m.size - MemoryMutex.SIZE) ∧
    (∃ m2 r, Memory.allocate m s = some (m2, r) ∧ m2.lockWord = false) ∧
    (∃ m2 r, Memory.allocateMore m s p = some (m2, r) ∧
      m2.lockWord = false) ∧
    (∃ m2 r, Memory.deallocate m d = some (m2, r) ∧ m2.lockWord = false) := by
  have hlock : MemoryMutex.lock m =
      some (⟨m.base + MemoryMutex.SIZE, m.size - MemoryMutex.SIZE⟩,
        { m with lockWord := true }) := by
    simp [MemoryMutex.lock, h]
  refine ⟨?_, ?_, ?_, ?_⟩
  · intro g m1 hg
    rw [hlock, Option.some.injEq, Prod.mk.injEq] at hg
    obtain ⟨hg1, _⟩ := hg
    subst hg1
    exact ⟨rfl, rfl⟩
  · unfold Memory.allocate
    rw [hlock]
    exact ⟨_, _, rfl, rfl⟩
  · unfold Memory.allocateMore
    rw [hlock]
    exact ⟨_, _, rfl, rfl⟩
  · unfold Memory.deallocate
    rw [hlock]
    exact ⟨_, _, rfl, rfl⟩

/-- C9 witness: a concrete unlocked 100-byte mapping at base 1000. -/
theorem C9_witness :
    (∀ g m1, MemoryMutex.lock ⟨1000, 100, false, fun _ => ⟨0, 0, 0⟩⟩ =
        some (g, m1) →
      g.buffer = (MemoryState.mk 1000 100 false fun _ => ⟨0, 0, 0⟩).base +
        MemoryMutex.SIZE ∧
      g.size = (MemoryState.mk 1000 100 false fun _ => ⟨0, 0, 0⟩).size -
        MemoryMutex.SIZE) ∧
    (∃ m2 r, Memory.allocate ⟨1000, 100, false, fun _ => ⟨0, 0, 0⟩⟩ 4 =
        some (m2, r) ∧ m2.lockWord = false) ∧
    (∃ m2 r, Memory.allocateMore ⟨1000, 100, false, fun _ => ⟨0, 0, 0⟩⟩ 4 4 =
        some (m2, r) ∧ m2.lockWord = false) ∧
    (∃ m2 r, Memory.deallocate ⟨1000, 100, false, fun _ => ⟨0, 0, 0⟩⟩ 4 =
        some (m2, r) ∧ m2.lockWord = false) :=
  C9_lock_released_after_ops ⟨1000, 100, false, fun _ => ⟨0, 0, 0⟩⟩ 4 4 4 rfl

end Rshmem
